import Mathlib

/-!
# KittenTTS real-time pipeline: verification of the specification claims

Shallow embedding, in Lean 4, of the parts of the KittenTTS repository that
the specification claims talk about:

* `AudioBuffer` (src/kittentts/utils.py): fixed-size circular audio buffer.
* the audio cache inside `RealtimeKittenTTS.generate_fast`
  (src/kittentts/realtime_engine.py).
* the future-polling delivery loop of `RealtimeKittenTTS.generate_streaming`.
* `PerformanceProfiler.end_timing` (src/kittentts/utils.py).
* `TextChunker.chunk_text` and the streaming text splitter.
* the voice check in `KittenTTS_1_Onnx._prepare_inputs`
  (src/kittentts/onnx_model.py).

Audio samples are modelled as rationals (`ℚ`): the pipeline never computes
with sample values, it only moves them around, so the carrier type is
irrelevant; `ℚ` keeps every definition executable and decidable.
Python strings are modelled as `List Char`; `len`, slicing, `str.strip`,
`str.split` and the two `re.split` patterns used by the chunkers are
modelled explicitly below.
-/

namespace KittenTTS

/-! ## 1. AudioBuffer (src/kittentts/utils.py, class AudioBuffer)

State of the Python object: `size`, `buffer` (a float array of length
`size`), `write_pos`, `read_pos`, `available_samples`.  The lock is
dropped: the embedding is sequential, every Python method body runs
atomically under `self.lock` anyway. -/

structure AudioBuffer where
  size : Nat
  buffer : List ℚ
  write_pos : Nat
  read_pos : Nat
  available_samples : Nat
  deriving Repr, DecidableEq

/-- `AudioBuffer.__init__`: `buffer = np.zeros(size)`, cursors and count 0. -/
def AudioBuffer.init (size : Nat) : AudioBuffer :=
  ⟨size, List.replicate size 0, 0, 0, 0⟩

/-- In-place slice assignment `l[pos:pos+len(xs)] = xs` on a numpy array. -/
def splice (l : List ℚ) (pos : Nat) (xs : List ℚ) : List ℚ :=
  l.take pos ++ xs ++ l.drop (pos + xs.length)

/-- `AudioBuffer.write` (utils.py lines 28-56).  Returns the new state and
the number of samples written.  `samples_to_write = min(len(data),
size - available_samples)`; `if samples_to_write <= 0: return 0`; otherwise
either one contiguous slice assignment or a split across the boundary,
then the cursor advances mod `size` and the count grows. -/
def AudioBuffer.write (b : AudioBuffer) (data : List ℚ) : AudioBuffer × Nat :=
  let n := min data.length (b.size - b.available_samples)
  if n = 0 then (b, 0)
  else
    let buf :=
      if b.write_pos + n ≤ b.size then
        splice b.buffer b.write_pos (data.take n)
      else
        -- first_part = size - write_pos; buffer[write_pos:] = data[:first_part];
        -- buffer[:n - first_part] = data[first_part:n]
        let first := b.size - b.write_pos
        splice (splice b.buffer b.write_pos (data.take first)) 0
          ((data.drop first).take (n - first))
    ({ b with buffer := buf,
              write_pos := (b.write_pos + n) % b.size,
              available_samples := b.available_samples + n }, n)

/-- `AudioBuffer.read` (utils.py lines 58-87).  Returns the new state and
the samples read.  `samples_to_read = min(num, available_samples)`; empty
result and unchanged state when that is 0; otherwise one contiguous copy or
a split across the boundary, then the read cursor advances mod `size` and
the count shrinks. -/
def AudioBuffer.read (b : AudioBuffer) (num : Nat) : AudioBuffer × List ℚ :=
  let n := min num b.available_samples
  if n = 0 then (b, [])
  else
    let result :=
      if b.read_pos + n ≤ b.size then
        (b.buffer.drop b.read_pos).take n
      else
        -- first_part = size - read_pos; result[:first_part] = buffer[read_pos:];
        -- result[first_part:] = buffer[:n - first_part]
        b.buffer.drop b.read_pos ++ b.buffer.take (n - (b.size - b.read_pos))
    ({ b with read_pos := (b.read_pos + n) % b.size,
              available_samples := b.available_samples - n }, result)

/-- `AudioBuffer.available` (utils.py lines 89-92): pure observer. -/
def AudioBuffer.available (b : AudioBuffer) : Nat := b.available_samples

/-- `AudioBuffer.free_space` (utils.py lines 94-97): pure observer. -/
def AudioBuffer.free_space (b : AudioBuffer) : Nat := b.size - b.available_samples

/-- `AudioBuffer.clear` (utils.py lines 99-105): zero the storage, reset
cursors and count; the capacity is untouched. -/
def AudioBuffer.clear (b : AudioBuffer) : AudioBuffer :=
  { b with buffer := List.replicate b.size 0, write_pos := 0, read_pos := 0,
           available_samples := 0 }

/-- The cursor/count invariant stated by the spec for the circular buffer:
`0 ≤ count ≤ capacity` and `write cursor == (read cursor + count) mod
capacity` (`0 ≤ count` is automatic over `Nat`). -/
def AudioBuffer.cursorInv (b : AudioBuffer) : Prop :=
  b.available_samples ≤ b.size ∧
  b.write_pos = (b.read_pos + b.available_samples) % b.size

/-- Full well-formedness used internally for the FIFO refinement: the
storage really has `size` cells and both cursors are in range
(`< max size 1` so that the degenerate `size = 0` buffer is covered). -/
def AudioBuffer.wf (b : AudioBuffer) : Prop :=
  b.buffer.length = b.size ∧ b.available_samples ≤ b.size ∧
  b.read_pos < max b.size 1 ∧ b.write_pos < max b.size 1 ∧
  b.write_pos = (b.read_pos + b.available_samples) % b.size

/-- The queue of samples currently held, oldest first: the storage rotated
so the read cursor comes first, truncated to the live count. -/
def AudioBuffer.pending (b : AudioBuffer) : List ℚ :=
  (b.buffer.drop b.read_pos ++ b.buffer.take b.read_pos).take b.available_samples

theorem AudioBuffer.init_wf (size : Nat) : (AudioBuffer.init size).wf := by
  refine ⟨by simp [init], by simp [init], ?_, ?_, by simp [init]⟩ <;>
    · show 0 < max _ 1
      omega

theorem AudioBuffer.init_pending (size : Nat) :
    (AudioBuffer.init size).pending = [] := by
  simp [init, pending]

/-- Rotating a splice, no wraparound: writing `dn` at absolute position
`r + a` (with room before the end) appends `dn` right after the live region
of the rotated view. -/
theorem rot_splice_mid (L dn : List ℚ) (r a : Nat)
    (h : r + a + dn.length ≤ L.length) :
    (splice L (r + a) dn).drop r ++ (splice L (r + a) dn).take r =
      (L.drop r ++ L.take r).take a ++ dn ++
        (L.drop r ++ L.take r).drop (a + dn.length) := by
  set n := dn.length with hn
  have hlt : (L.take (r + a)).length = r + a := by simp; omega
  have h1 : (splice L (r + a) dn).drop r =
      (L.drop r).take a ++ dn ++ L.drop (r + a + n) := by
    rw [splice, List.append_assoc, List.drop_append_eq_append_drop, hlt,
      Nat.sub_eq_zero_of_le (by omega), List.drop_zero, List.drop_take]
    simp [Nat.add_sub_cancel_left]
  have h2 : (splice L (r + a) dn).take r = L.take r := by
    rw [splice, List.append_assoc, List.take_append_eq_append_take, hlt,
      Nat.sub_eq_zero_of_le (by omega), List.take_zero, List.append_nil,
      List.take_take, Nat.min_eq_left (by omega)]
  have h3 : (L.drop r ++ L.take r).take a = (L.drop r).take a := by
    rw [List.take_append_eq_append_take, List.length_drop,
      Nat.sub_eq_zero_of_le (by omega), List.take_zero, List.append_nil]
  have h4 : (L.drop r ++ L.take r).drop (a + n) =
      L.drop (r + a + n) ++ L.take r := by
    rw [List.drop_append_eq_append_drop, List.length_drop,
      Nat.sub_eq_zero_of_le (by omega), List.drop_zero, List.drop_drop]
    congr 2
    omega
  rw [h1, h2, h3, h4]
  simp [List.append_assoc]

/-- Rotating a splice, write cursor already wrapped: the write lands in
`[r+a-len, r+a-len+|dn|) ⊆ [0, r)` and again appends `dn` after the live
region of the rotated view. -/
theorem rot_splice_wrapped (L dn : List ℚ) (r a : Nat)
    (hr : r < L.length) (ha : a ≤ L.length) (hwrap : L.length ≤ r + a)
    (hroom : dn.length ≤ L.length - a) :
    (splice L (r + a - L.length) dn).drop r ++
        (splice L (r + a - L.length) dn).take r =
      (L.drop r ++ L.take r).take a ++ dn ++
        (L.drop r ++ L.take r).drop (a + dn.length) := by
  generalize hw : r + a - L.length = w at *
  have hwr : w + dn.length ≤ r := by omega
  have hlt : (L.take w).length = w := by
    rw [List.length_take]
    omega
  have hld : (L.drop r).length = L.length - r := List.length_drop ..
  have h1 : (splice L w dn).drop r = L.drop r := by
    rw [splice, List.append_assoc, List.drop_append_eq_append_drop, hlt,
      List.drop_of_length_le (l := L.take w) (by rw [hlt]; omega),
      List.drop_append_eq_append_drop,
      List.drop_of_length_le (l := dn) (by omega), List.drop_drop]
    simp only [List.nil_append, List.nil_append]
    congr 1
    omega
  have h2 : (splice L w dn).take r =
      L.take w ++ dn ++ (L.drop (w + dn.length)).take (r - w - dn.length) := by
    rw [splice, List.append_assoc, List.take_append_eq_append_take, hlt,
      List.take_of_length_le (l := L.take w) (by rw [hlt]; omega),
      List.take_append_eq_append_take,
      List.take_of_length_le (l := dn) (by omega)]
    simp only [List.append_assoc]
  have h3 : (L.drop r ++ L.take r).take a = L.drop r ++ L.take w := by
    rw [List.take_append_eq_append_take, hld,
      List.take_of_length_le (l := L.drop r) (by rw [hld]; omega), List.take_take,
      Nat.min_eq_left (by omega)]
    congr 2
    omega
  have h4 : (L.drop r ++ L.take r).drop (a + dn.length) =
      (L.drop (w + dn.length)).take (r - w - dn.length) := by
    rw [List.drop_append_eq_append_drop, List.drop_drop,
      List.drop_of_length_le (l := L) (i := r + (a + dn.length)) (by omega),
      List.nil_append, hld,
      show a + dn.length - (L.length - r) = w + dn.length by omega,
      List.drop_take,
      show r - (w + dn.length) = r - w - dn.length by omega]
  rw [h1, h2, h3, h4]
  simp [List.append_assoc]

/-- Rotating the two-part boundary-straddling write: writing `dn.take f` at
the end of storage and `dn.drop f` at the start appends `dn` after the live
region of the rotated view. -/
theorem rot_splice_straddle (L dn : List ℚ) (r a w f m : Nat)
    (hw : w = r + a) (hf : f = L.length - w) (hm : m = dn.length - f)
    (hr : r < L.length) (hmid : w < L.length)
    (hroom : dn.length ≤ L.length - a) (hover : L.length < w + dn.length) :
    (splice (splice L w (dn.take f)) 0 ((dn.drop f).take m)).drop r ++
        (splice (splice L w (dn.take f)) 0 ((dn.drop f).take m)).take r =
      (L.drop r ++ L.take r).take a ++ dn ++
        (L.drop r ++ L.take r).drop (a + dn.length) := by
  have hfn : f < dn.length := by omega
  have hmr : m ≤ r := by omega
  have hrw : r ≤ w := by omega
  have hdf : (dn.take f).length = f := by
    rw [List.length_take]; omega
  have hdmlen : (dn.drop f).length = m := by
    rw [List.length_drop]; omega
  have hdm2 : (dn.drop f).take m = dn.drop f :=
    List.take_of_length_le (by omega)
  have hLw : (L.take w).length = w := by
    rw [List.length_take]; omega
  have hM : splice L w (dn.take f) = L.take w ++ dn.take f := by
    rw [splice, hdf, List.drop_of_length_le (l := L) (by omega)]
    simp
  have hlen2 : ((L.take w).drop m).length = w - m := by
    rw [List.length_drop, hLw]
  have hbuf : splice (splice L w (dn.take f)) 0 ((dn.drop f).take m) =
      dn.drop f ++ ((L.take w).drop m ++ dn.take f) := by
    rw [hM, splice, List.take_zero, List.nil_append, hdm2, Nat.zero_add,
      hdmlen, List.drop_append_eq_append_drop, hLw,
      show m - w = 0 by omega, List.drop_zero]
  have h1 : (dn.drop f ++ ((L.take w).drop m ++ dn.take f)).drop r =
      (L.drop r).take a ++ dn.take f := by
    rw [List.drop_append_eq_append_drop,
      List.drop_of_length_le (l := dn.drop f) (by omega), hdmlen,
      List.nil_append, List.drop_append_eq_append_drop, List.drop_drop,
      show m + (r - m) = r by omega, hlen2,
      show r - m - (w - m) = 0 by omega, List.drop_zero, List.drop_take,
      show w - r = a by omega]
  have h2 : (dn.drop f ++ ((L.take w).drop m ++ dn.take f)).take r =
      dn.drop f ++ (L.take r).drop m := by
    rw [List.take_append_eq_append_take,
      List.take_of_length_le (l := dn.drop f) (by omega), hdmlen,
      List.take_append_eq_append_take, hlen2,
      show r - m - (w - m) = 0 by omega, List.take_zero, List.append_nil,
      List.drop_take, List.take_take, Nat.min_eq_left (by omega),
      ← List.drop_take]
  have h3 : (L.drop r ++ L.take r).take a = (L.drop r).take a := by
    rw [List.take_append_eq_append_take, List.length_drop,
      Nat.sub_eq_zero_of_le (by omega), List.take_zero, List.append_nil]
  have h4 : (L.drop r ++ L.take r).drop (a + dn.length) = (L.take r).drop m := by
    rw [List.drop_append_eq_append_drop, List.drop_drop,
      List.drop_of_length_le (l := L) (by omega), List.nil_append,
      List.length_drop, show a + dn.length - (L.length - r) = m by omega]
  rw [hbuf, h1, h2, h3, h4]
  simp only [List.append_assoc]
  rw [← List.append_assoc (dn.take f) (dn.drop f), List.take_append_drop]

theorem splice_length (l xs : List ℚ) (pos : Nat)
    (h : pos + xs.length ≤ l.length) : (splice l pos xs).length = l.length := by
  simp [splice]
  omega

theorem AudioBuffer.pending_length (b : AudioBuffer) (h : b.wf) :
    b.pending.length = b.available_samples := by
  obtain ⟨hL, ha, -, -, -⟩ := h
  simp [pending]
  omega

/-- `write` behaves as the spec-level bounded queue: it accepts exactly
`min (len data) (size - count)` samples and appends them, in order, to the
queue of held samples. -/
theorem AudioBuffer.write_spec (b : AudioBuffer) (data : List ℚ) (h : b.wf) :
    (b.write data).2 = min data.length (b.size - b.available_samples) ∧
    (b.write data).1.size = b.size ∧
    (b.write data).1.wf ∧
    (b.write data).1.pending =
      b.pending ++ data.take (min data.length (b.size - b.available_samples)) := by
  obtain ⟨hL, ha, hr, hw, hwa⟩ := h
  by_cases hn : min data.length (b.size - b.available_samples) = 0
  · have hb : b.write data = (b, 0) := by
      rw [write]
      simp [hn]
    rw [hb, hn, List.take_zero, List.append_nil]
    exact ⟨rfl, rfl, ⟨hL, ha, hr, hw, hwa⟩, rfl⟩
  · have hn0 : 0 < min data.length (b.size - b.available_samples) := Nat.pos_of_ne_zero hn
    have hs : 0 < b.size := by omega
    have hr' : b.read_pos < b.size := by omega
    have hdn : (data.take (min data.length (b.size - b.available_samples))).length =
        min data.length (b.size - b.available_samples) := by
      rw [List.length_take]
      omega
    have hb : b.write data =
        ({ b with
            buffer :=
              if b.write_pos + min data.length (b.size - b.available_samples) ≤ b.size then
                splice b.buffer b.write_pos
                  (data.take (min data.length (b.size - b.available_samples)))
              else
                splice (splice b.buffer b.write_pos (data.take (b.size - b.write_pos))) 0
                  ((data.drop (b.size - b.write_pos)).take
                    (min data.length (b.size - b.available_samples) - (b.size - b.write_pos))),
            write_pos :=
              (b.write_pos + min data.length (b.size - b.available_samples)) % b.size,
            available_samples :=
              b.available_samples + min data.length (b.size - b.available_samples) },
          min data.length (b.size - b.available_samples)) := by
      rw [write, if_neg hn]
    rw [hb]
    have hXlen : ((b.buffer.drop b.read_pos ++ b.buffer.take b.read_pos).take
        b.available_samples).length = b.available_samples := by
      simp only [List.length_take, List.length_append, List.length_drop]
      omega
    refine ⟨rfl, rfl, ?_, ?_⟩
    · -- well-formedness of the post-write state
      refine ⟨?_, ?_, ?_, ?_, ?_⟩ <;> dsimp only
      · -- storage length is preserved by either splice form
        split <;> rename_i hA
        · rw [splice_length _ _ _ (by rw [List.length_take, hL]; omega), hL]
        · have e1 : (splice b.buffer b.write_pos
              (data.take (b.size - b.write_pos))).length = b.size := by
            rw [splice_length _ _ _ (by rw [List.length_take, hL]; omega), hL]
          rw [splice_length _ _ _
            (by rw [e1, List.length_take, List.length_drop]; omega), e1]
      · omega
      · omega
      · exact Nat.lt_of_lt_of_le (Nat.mod_lt _ hs) (Nat.le_max_left _ _)
      · rw [hwa, Nat.mod_add_mod]
        congr 1
        omega
    · -- the queue view: rotated storage gains exactly the accepted prefix
      simp only [AudioBuffer.pending]
      rcases Nat.lt_or_ge (b.read_pos + b.available_samples) b.size with hmid | hwrap
      · have hwval : b.write_pos = b.read_pos + b.available_samples := by
          rw [hwa, Nat.mod_eq_of_lt hmid]
        by_cases hA : b.write_pos + min data.length (b.size - b.available_samples) ≤ b.size
        · -- contiguous write, no wraparound
          rw [if_pos hA, hwval,
            rot_splice_mid b.buffer _ _ _ (by rw [hdn, hL]; omega),
            List.take_append_eq_append_take, List.length_append, hXlen, hdn,
            Nat.sub_self, List.take_zero, List.append_nil,
            List.take_of_length_le (by rw [List.length_append, hXlen, hdn])]
        · -- straddling write: two-part splice
          rw [if_neg hA, hwval,
            show data.take (b.size - (b.read_pos + b.available_samples)) =
              (data.take (min data.length (b.size - b.available_samples))).take
                (b.size - (b.read_pos + b.available_samples)) by
                rw [List.take_take, Nat.min_eq_left (by omega)],
            show (data.drop (b.size - (b.read_pos + b.available_samples))).take
                (min data.length (b.size - b.available_samples) -
                  (b.size - (b.read_pos + b.available_samples))) =
              ((data.take (min data.length (b.size - b.available_samples))).drop
                  (b.size - (b.read_pos + b.available_samples))).take
                (min data.length (b.size - b.available_samples) -
                  (b.size - (b.read_pos + b.available_samples))) by
                rw [List.drop_take, List.take_take, Nat.min_self],
            rot_splice_straddle b.buffer _ b.read_pos b.available_samples _ _ _
              rfl (by rw [hL]) (by rw [hdn]) (by omega) (by omega)
              (by rw [hdn, hL]; omega) (by rw [hdn, hL]; omega),
            List.take_append_eq_append_take, List.length_append, hXlen, hdn,
            Nat.sub_self, List.take_zero, List.append_nil,
            List.take_of_length_le (by rw [List.length_append, hXlen, hdn])]
      · have hwval : b.write_pos =
            b.read_pos + b.available_samples - b.size := by
          rw [hwa, Nat.mod_eq_sub_mod hwrap, Nat.mod_eq_of_lt (by omega)]
        have hA : b.write_pos + min data.length (b.size - b.available_samples) ≤
            b.size := by omega
        rw [if_pos hA, hwval,
          show b.read_pos + b.available_samples - b.size =
            b.read_pos + b.available_samples - b.buffer.length by rw [hL],
          rot_splice_wrapped b.buffer _ _ _ (by omega) (by omega) (by omega)
            (by rw [hdn, hL]; omega),
          List.take_append_eq_append_take, List.length_append, hXlen, hdn,
          Nat.sub_self, List.take_zero, List.append_nil,
          List.take_of_length_le (by rw [List.length_append, hXlen, hdn])]

/-- `read` behaves as the spec-level queue: it returns exactly the oldest
`min num count` held samples and removes them. -/
theorem AudioBuffer.read_spec (b : AudioBuffer) (num : Nat) (h : b.wf) :
    (b.read num).2 = b.pending.take num ∧
    (b.read num).1.size = b.size ∧
    (b.read num).1.wf ∧
    (b.read num).1.pending = b.pending.drop num := by
  obtain ⟨hL, ha, hr, hw, hwa⟩ := h
  have hplen : b.pending.length = b.available_samples :=
    pending_length b ⟨hL, ha, hr, hw, hwa⟩
  by_cases hn : min num b.available_samples = 0
  · have hb : b.read num = (b, []) := by
      rw [read]
      simp [hn]
    rw [hb]
    refine ⟨?_, rfl, ⟨hL, ha, hr, hw, hwa⟩, ?_⟩
    · rcases Nat.min_eq_zero_iff.mp hn with h0 | h0
      · rw [h0, List.take_zero]
      · rw [pending, h0, List.take_zero, List.take_nil]
    · rcases Nat.min_eq_zero_iff.mp hn with h0 | h0
      · rw [h0, List.drop_zero]
      · rw [pending, h0, List.take_zero, List.drop_nil]
  · have hn0 : 0 < min num b.available_samples := Nat.pos_of_ne_zero hn
    have hs : 0 < b.size := by omega
    have hr' : b.read_pos < b.size := by omega
    have hb : b.read num =
        ({ b with read_pos := (b.read_pos + min num b.available_samples) % b.size,
                  available_samples := b.available_samples - min num b.available_samples },
          if b.read_pos + min num b.available_samples ≤ b.size then
            (b.buffer.drop b.read_pos).take (min num b.available_samples)
          else
            b.buffer.drop b.read_pos ++
              b.buffer.take (min num b.available_samples - (b.size - b.read_pos))) := by
      rw [read, if_neg hn]
    rw [hb]
    have hrotlen : (b.buffer.drop b.read_pos ++ b.buffer.take b.read_pos).length =
        b.size := by
      simp only [List.length_append, List.length_drop, List.length_take]
      omega
    have hres : (if b.read_pos + min num b.available_samples ≤ b.size then
        (b.buffer.drop b.read_pos).take (min num b.available_samples)
      else
        b.buffer.drop b.read_pos ++
          b.buffer.take (min num b.available_samples - (b.size - b.read_pos))) =
        (b.buffer.drop b.read_pos ++ b.buffer.take b.read_pos).take
          (min num b.available_samples) := by
      split <;> rename_i hc
      · rw [List.take_append_eq_append_take, List.length_drop,
          Nat.sub_eq_zero_of_le (by omega), List.take_zero, List.append_nil]
      · rw [List.take_append_eq_append_take, List.length_drop,
          List.take_of_length_le (l := b.buffer.drop b.read_pos)
            (by rw [List.length_drop]; omega),
          List.take_take, hL,
          Nat.min_eq_left (show min num b.available_samples -
            (b.size - b.read_pos) ≤ b.read_pos by omega)]
    refine ⟨?_, rfl, ?_, ?_⟩
    · -- the samples returned are the oldest `min num count` in FIFO order
      rw [hres, pending, List.take_take, Nat.min_comm]
    · -- well-formedness of the post-read state
      refine ⟨?_, ?_, ?_, ?_, ?_⟩ <;> dsimp only
      · exact hL
      · omega
      · exact Nat.lt_of_lt_of_le (Nat.mod_lt _ hs) (Nat.le_max_left _ _)
      · exact hw
      · rw [Nat.mod_add_mod, hwa]
        congr 1
        omega
    · -- the queue view loses exactly its oldest `min num count` samples
      simp only [AudioBuffer.pending]
      have hrot : b.buffer.drop
            ((b.read_pos + min num b.available_samples) % b.size) ++
          b.buffer.take ((b.read_pos + min num b.available_samples) % b.size) =
          ((b.buffer.drop b.read_pos ++ b.buffer.take b.read_pos).drop
              (min num b.available_samples)) ++
            ((b.buffer.drop b.read_pos ++ b.buffer.take b.read_pos).take
              (min num b.available_samples)) := by
        rw [← List.rotate_eq_drop_append_take
            (by rw [hL]; exact Nat.le_of_lt (Nat.mod_lt _ hs)),
          ← List.rotate_eq_drop_append_take (by rw [hrotlen]; omega),
          ← List.rotate_eq_drop_append_take (by rw [hL]; omega),
          List.rotate_rotate, ← List.rotate_mod (n := b.read_pos + min num b.available_samples),
          hL]
      rw [hrot, List.take_append_eq_append_take, List.length_drop, hrotlen,
        show b.available_samples - min num b.available_samples -
          (b.size - min num b.available_samples) = 0 by omega,
        List.take_zero, List.append_nil, List.drop_take]
      rcases Nat.le_total num b.available_samples with hcase | hcase
      · rw [Nat.min_eq_left hcase]
      · rw [Nat.min_eq_right hcase, Nat.sub_self, List.take_zero,
          show b.available_samples - num = 0 by omega, List.take_zero]

/-- One buffer operation of a client trace. -/
inductive BufOp where
  | write (data : List ℚ) : BufOp
  | read (num : Nat) : BufOp
  deriving Repr, DecidableEq

/-- Run a trace of operations against the circular buffer, recording each
write's return value and each read's returned samples. -/
def bufRun : AudioBuffer → List BufOp → List (Nat ⊕ List ℚ)
  | _, [] => []
  | b, BufOp.write d :: rest =>
      Sum.inl (b.write d).2 :: bufRun (b.write d).1 rest
  | b, BufOp.read n :: rest =>
      Sum.inr (b.read n).2 :: bufRun (b.read n).1 rest

/-- Reference semantics: a plain bounded FIFO queue of capacity `C`.  A
write accepts exactly `min (len data) (C - len queue)` samples and appends
them; a read removes and returns the first `min n (len queue)` samples. -/
def queueRun : Nat → List ℚ → List BufOp → List (Nat ⊕ List ℚ)
  | _, _, [] => []
  | C, q, BufOp.write d :: rest =>
      Sum.inl (min d.length (C - q.length)) ::
        queueRun C (q ++ d.take (min d.length (C - q.length))) rest
  | C, q, BufOp.read n :: rest =>
      Sum.inr (q.take n) :: queueRun C (q.drop n) rest

theorem bufRun_eq_queueRun (ops : List BufOp) :
    ∀ b : AudioBuffer, b.wf → bufRun b ops = queueRun b.size b.pending ops := by
  induction ops with
  | nil => intro b _; rfl
  | cons op rest ih =>
    intro b h
    cases op with
    | write d =>
      obtain ⟨h2, h3, h4, h5⟩ := b.write_spec d h
      rw [bufRun, queueRun, AudioBuffer.pending_length b h, h2, ih _ h4, h3, h5]
    | read n =>
      obtain ⟨h1, h3, h4, h5⟩ := b.read_spec n h
      rw [bufRun, queueRun, h1, ih _ h4, h3, h5]

/-- C5: for every capacity and every finite sequence of writes and reads,
the circular buffer's observable behaviour (write return counts and read
results) is exactly that of a bounded FIFO queue: reads never return more
samples than the write return values account for, and return exactly the
earliest written, not-yet-read samples in order, wraparound included. -/
theorem audioBuffer_fifo_refinement (C : Nat) (ops : List BufOp) :
    bufRun (AudioBuffer.init C) ops = queueRun C [] ops := by
  rw [bufRun_eq_queueRun ops (AudioBuffer.init C) (AudioBuffer.init_wf C),
    AudioBuffer.init_pending]
  rfl

theorem AudioBuffer.write_size (b : AudioBuffer) (d : List ℚ) :
    (b.write d).1.size = b.size := by
  rw [write]
  split <;> rfl

theorem AudioBuffer.read_size (b : AudioBuffer) (n : Nat) :
    (b.read n).1.size = b.size := by
  rw [read]
  split <;> rfl

theorem AudioBuffer.clear_size (b : AudioBuffer) : b.clear.size = b.size := rfl

theorem AudioBuffer.write_cursorInv (b : AudioBuffer) (d : List ℚ)
    (h : b.cursorInv) : (b.write d).1.cursorInv := by
  obtain ⟨h1, h2⟩ := h
  rw [write]
  split <;> rename_i hc
  · exact ⟨h1, h2⟩
  · refine ⟨?_, ?_⟩ <;> dsimp only
    · omega
    · rw [h2, Nat.mod_add_mod]
      congr 1
      omega

theorem AudioBuffer.read_cursorInv (b : AudioBuffer) (n : Nat)
    (h : b.cursorInv) : (b.read n).1.cursorInv := by
  obtain ⟨h1, h2⟩ := h
  rw [read]
  split <;> rename_i hc
  · exact ⟨h1, h2⟩
  · refine ⟨?_, ?_⟩ <;> dsimp only
    · omega
    · rw [h2, Nat.mod_add_mod]
      congr 1
      omega

theorem AudioBuffer.clear_cursorInv (b : AudioBuffer) : b.clear.cursorInv :=
  ⟨Nat.zero_le _, by simp [clear]⟩

/-- C6: every buffer operation preserves `0 ≤ count ≤ capacity` together
with `write cursor = (read cursor + count) mod capacity`, and none of them
changes the capacity fixed at construction (`available` and `free_space`
are pure observers with no state change by definition). -/
theorem audioBuffer_cursor_invariant (b : AudioBuffer) (data : List ℚ)
    (num : Nat) (h : b.cursorInv) :
    (b.write data).1.cursorInv ∧ (b.read num).1.cursorInv ∧
    b.clear.cursorInv ∧ (b.write data).1.size = b.size ∧
    (b.read num).1.size = b.size ∧ b.clear.size = b.size :=
  ⟨b.write_cursorInv data h, b.read_cursorInv num h, b.clear_cursorInv,
    b.write_size data, b.read_size num, b.clear_size⟩

/-- Witness for C6 at a concrete buffer state. -/
theorem audioBuffer_cursor_invariant_witness :
    (AudioBuffer.init 3).cursorInv ∧
    (((AudioBuffer.init 3).write [1, 2]).1.cursorInv ∧
      ((AudioBuffer.init 3).read 1).1.cursorInv ∧
      (AudioBuffer.init 3).clear.cursorInv ∧
      ((AudioBuffer.init 3).write [1, 2]).1.size = (AudioBuffer.init 3).size ∧
      ((AudioBuffer.init 3).read 1).1.size = (AudioBuffer.init 3).size ∧
      (AudioBuffer.init 3).clear.size = (AudioBuffer.init 3).size) :=
  ⟨⟨by decide, by decide⟩,
    audioBuffer_cursor_invariant (AudioBuffer.init 3) [1, 2] 1
      ⟨by decide, by decide⟩⟩

/-! ## 2. The audio cache of `RealtimeKittenTTS.generate_fast`
(src/kittentts/realtime_engine.py lines 96-141)

`self._audio_cache` is a Python dict keyed by
`f"{hash(text)}_{voice}_{speed}"`; `hash` is modelled as the identity on
the text, so a key is the triple.  A Python 3.7+ dict preserves insertion
order (an overwrite keeps the old position, a new key goes to the back;
`next(iter(d))` is the front), so the cache is an association list. -/

/-- Audio samples handed around by the engine. -/
abbrev Audio := List ℚ

/-- The cache key triple behind `f"{hash(text)}_{voice}_{speed}"`. -/
structure CacheKey where
  text : List Char
  voice : List Char
  speed : ℚ
  deriving Repr, DecidableEq

/-- Python dict lookup `d[k]` / `k in d` (first entry with the key; in a
dict keys are unique). -/
def alookup {α β : Type} [DecidableEq α] : List (α × β) → α → Option β
  | [], _ => none
  | (k', v) :: rest, k => if k' = k then some v else alookup rest k

/-- Python dict assignment `d[k] = v`: overwrite in place, or append. -/
def dictInsert {α β : Type} [DecidableEq α] : List (α × β) → α → β → List (α × β)
  | [], k, v => [(k, v)]
  | (k', v') :: rest, k, v =>
      if k' = k then (k', v) :: rest else (k', v') :: dictInsert rest k v

/-- Python `del d[k]` (removes the first entry with the key). -/
def eraseKey {α β : Type} [DecidableEq α] : List (α × β) → α → List (α × β)
  | [], _ => []
  | (k', v) :: rest, k => if k' = k then rest else (k', v) :: eraseKey rest k

/-- `self._max_cache_size = 50` (realtime_engine.py line 43). -/
def maxCacheSize : Nat := 50

/-- The cache-store step of `generate_fast` (lines 127-136): if the cache
is below the maximum, insert; otherwise delete `next(iter(cache))` — the
first entry in insertion order — and then insert.  (For `maxSize = 0` and
an empty cache Python would raise `StopIteration`; the engine always uses
the fixed maximum 50, so the theorems below assume `0 < maxSize`.) -/
def cachePut {β : Type} (cache : List (CacheKey × β)) (k : CacheKey) (a : β)
    (maxSize : Nat) : List (CacheKey × β) :=
  if cache.length < maxSize then dictInsert cache k a
  else dictInsert (cache.drop 1) k a

inductive TTSError where
  | invalidVoice : TTSError
  | renderFailure : TTSError
  deriving Repr, DecidableEq

/-- `RealtimeKittenTTS.generate_fast` (lines 96-141): on `use_cache`, a
cache hit returns the stored entry (a `.copy()`, value-identical) and
leaves the cache untouched; on a miss the base model renders (an exception
propagates, aborting before any caching) and the result is stored via the
bounded-eviction step. -/
def generate_fast (render : List Char → List Char → ℚ → Except TTSError Audio)
    (cache : List (CacheKey × Audio)) (text voice : List Char) (speed : ℚ)
    (useCache : Bool) : Except TTSError (Audio × List (CacheKey × Audio)) :=
  if useCache then
    match alookup cache ⟨text, voice, speed⟩ with
    | some audio => .ok (audio, cache)
    | none =>
      match render text voice speed with
      | .error e => .error e
      | .ok audio =>
          .ok (audio, cachePut cache ⟨text, voice, speed⟩ audio maxCacheSize)
  else
    match render text voice speed with
    | .error e => .error e
    | .ok audio => .ok (audio, cache)

/-- Modelled from the spec: spec §4.3 (AudioCache `get`) describes a TTL
cache.  The repository class matching it (`CacheManager`, imported by
example_usage.py with `cache_ttl` / `get_audio` / `store_audio`) is not
present in the sources, so this spec-side read path follows the spec's
words: entries carry an insertion timestamp, a read at time `now` returns
a present entry only when its age is at most `ttl`, and an older entry is
treated as a miss and removed by that read.  The engine cache that the
claim's code reference points at (`generate_fast`) stores no timestamps
at all. -/
def specCacheGet (ttl now : Nat) (cache : List (CacheKey × Audio × Nat))
    (k : CacheKey) : Option Audio × List (CacheKey × Audio × Nat) :=
  match cache.find? (fun p => p.1 = k) with
  | none => (none, cache)
  | some (_, a, t) =>
      if now - t ≤ ttl then (some a, cache)
      else (none, cache.filter (fun p => ¬ p.1 = k))

/-- Forget the spec-side timestamps. -/
def stripTimes (cache : List (CacheKey × Audio × Nat)) : List (CacheKey × Audio) :=
  cache.map (fun p => (p.1, p.2.1))

def k0 : CacheKey := ⟨"hi".toList, "v".toList, 1⟩

/-- C2 counterexample: an entry inserted at time 0 and read at time 2 with
TTL 1 is expired for the spec's cache (miss, lazily removed), but the
code's hit path (`generate_fast` with `use_cache=True`) serves it anyway
and removes nothing — the base model is not even consulted (here it would
fail).  The code has no TTL. -/
theorem cache_ttl_counterexample :
    specCacheGet 1 2 [(k0, ([1, 2], 0))] k0 = (none, []) ∧
    generate_fast (fun _ _ _ => .error .renderFailure) [(k0, [1, 2])]
      "hi".toList "v".toList 1 true = .ok ([1, 2], [(k0, [1, 2])]) :=
  ⟨by decide, rfl⟩

/-- C2 amended: on the cache-hit path of `generate_fast` a stored entry is
returned whenever its key is present, with no age condition of any kind,
and the read never removes anything: the cache state is returned
unchanged. -/
theorem cache_hit_no_ttl
    (render : List Char → List Char → ℚ → Except TTSError Audio)
    (cache : List (CacheKey × Audio)) (text voice : List Char) (speed : ℚ)
    (a : Audio) (h : alookup cache ⟨text, voice, speed⟩ = some a) :
    generate_fast render cache text voice speed true = .ok (a, cache) := by
  rw [generate_fast, if_pos rfl, h]

/-- Witness for C2's amended theorem at a concrete cache state. -/
theorem cache_hit_no_ttl_witness :
    alookup [(k0, [1, 2])] k0 = some [1, 2] ∧
    generate_fast (fun _ _ _ => .error .renderFailure) [(k0, [1, 2])]
      "hi".toList "v".toList 1 true = .ok ([1, 2], [(k0, [1, 2])]) :=
  ⟨by decide, cache_hit_no_ttl _ _ _ _ _ _ (by decide)⟩

theorem dictInsert_length_le (c : List (CacheKey × Audio)) (k : CacheKey)
    (a : Audio) : (dictInsert c k a).length ≤ c.length + 1 := by
  induction c with
  | nil => simp [dictInsert]
  | cons p rest ih =>
    rw [dictInsert]
    split <;> simp
    omega

theorem dictInsert_of_lookup_none (c : List (CacheKey × Audio)) (k : CacheKey)
    (a : Audio) (h : alookup c k = none) : dictInsert c k a = c ++ [(k, a)] := by
  induction c with
  | nil => rfl
  | cons p rest ih =>
    rw [alookup] at h
    rw [dictInsert]
    split <;> rename_i hk
    · rw [if_pos hk] at h
      exact absurd h (by simp)
    · rw [if_neg hk] at h
      rw [ih h, List.cons_append]

theorem alookup_tail_none (c : List (CacheKey × Audio)) (k : CacheKey)
    (h : alookup c k = none) : alookup (c.drop 1) k = none := by
  cases c with
  | nil => exact h
  | cons p rest =>
    rw [alookup] at h
    rw [List.drop_one, List.tail_cons]
    split at h
    · exact absurd h (by simp)
    · exact h

/-- Helper: one bounded-eviction insertion step never leaves more than
`maxSize` entries, and when the insertion would exceed the maximum (key
absent, cache full) exactly the first-inserted entry is dropped and the
new entry appended at the back. -/
theorem cachePut_step (cache : List (CacheKey × Audio)) (k : CacheKey)
    (a : Audio) (maxSize : Nat) (hmax : 0 < maxSize)
    (hlen : cache.length ≤ maxSize) :
    (cachePut cache k a maxSize).length ≤ maxSize ∧
    (cache.length = maxSize → alookup cache k = none →
      cachePut cache k a maxSize = cache.drop 1 ++ [(k, a)]) := by
  constructor
  · rw [cachePut]
    split <;> rename_i hc
    · exact Nat.le_trans (dictInsert_length_le _ _ _) (by omega)
    · refine Nat.le_trans (dictInsert_length_le _ _ _) ?_
      rw [List.length_drop]
      omega
  · intro hfull hnone
    rw [cachePut, if_neg (by omega),
      dictInsert_of_lookup_none _ _ _ (alookup_tail_none _ _ hnone)]

/-- Every sequence of insertions through the bounded-eviction step keeps
the cache at no more than `maxSize` entries. -/
theorem cachePutSeq_bounded (maxSize : Nat) (hmax : 0 < maxSize)
    (items : List (CacheKey × Audio)) :
    (items.foldl (fun c p => cachePut c p.1 p.2 maxSize) []).length ≤ maxSize := by
  suffices h : ∀ c : List (CacheKey × Audio), c.length ≤ maxSize →
      (items.foldl (fun c p => cachePut c p.1 p.2 maxSize) c).length ≤ maxSize by
    exact h [] (by simp)
  induction items with
  | nil => intro c hc; simpa using hc
  | cons p rest ih =>
    intro c hc
    rw [List.foldl_cons]
    exact ih _ (cachePut_step c p.1 p.2 maxSize hmax hc).1

/-- C7: a bounded-eviction insertion step starting at or below the
configured maximum stays at or below it; when the insertion would exceed
the maximum (key absent, cache full) exactly the first-inserted entry is
evicted before the new entry is appended; and any sequence of insertions
starting from the empty cache stays bounded. -/
theorem cache_bounded_eviction (cache : List (CacheKey × Audio)) (k : CacheKey)
    (a : Audio) (maxSize : Nat) (items : List (CacheKey × Audio))
    (hmax : 0 < maxSize) (hlen : cache.length ≤ maxSize) :
    (cachePut cache k a maxSize).length ≤ maxSize ∧
    (cache.length = maxSize → alookup cache k = none →
      cachePut cache k a maxSize = cache.drop 1 ++ [(k, a)]) ∧
    (items.foldl (fun c p => cachePut c p.1 p.2 maxSize) []).length ≤ maxSize :=
  ⟨(cachePut_step cache k a maxSize hmax hlen).1,
    (cachePut_step cache k a maxSize hmax hlen).2,
    cachePutSeq_bounded maxSize hmax items⟩

/-- C7 witness: a full 2-entry cache receiving a fresh key evicts exactly
its oldest entry, and a 3-insertion sequence stays within the bound. -/
theorem cache_bounded_eviction_witness :
    0 < 2 ∧ ([(k0, [1, 2]), (⟨"a".toList, "v".toList, 1⟩, [3])] :
        List (CacheKey × Audio)).length ≤ 2 ∧
    ((cachePut ([(k0, [1, 2]), (⟨"a".toList, "v".toList, 1⟩, [3])] :
          List (CacheKey × Audio)) ⟨"b".toList, "v".toList, 1⟩ [4] 2).length ≤ 2 ∧
      (([(k0, [1, 2]), (⟨"a".toList, "v".toList, 1⟩, [3])] :
          List (CacheKey × Audio)).length = 2 →
        alookup ([(k0, [1, 2]), (⟨"a".toList, "v".toList, 1⟩, [3])] :
            List (CacheKey × Audio)) ⟨"b".toList, "v".toList, 1⟩ = none →
        cachePut ([(k0, [1, 2]), (⟨"a".toList, "v".toList, 1⟩, [3])] :
            List (CacheKey × Audio)) ⟨"b".toList, "v".toList, 1⟩ [4] 2 =
          List.drop 1 [(k0, [1, 2]), (⟨"a".toList, "v".toList, 1⟩, [3])] ++
            [(⟨"b".toList, "v".toList, 1⟩, [4])]) ∧
      (([(k0, [1]), (⟨"a".toList, "v".toList, 1⟩, [2]),
          (⟨"b".toList, "v".toList, 1⟩, [3])] :
          List (CacheKey × Audio)).foldl
            (fun c p => cachePut c p.1 p.2 2) []).length ≤ 2) :=
  ⟨by decide, by decide,
    cache_bounded_eviction [(k0, [1, 2]), (⟨"a".toList, "v".toList, 1⟩, [3])]
      ⟨"b".toList, "v".toList, 1⟩ [4] 2
      [(k0, [1]), (⟨"a".toList, "v".toList, 1⟩, [2]),
        (⟨"b".toList, "v".toList, 1⟩, [3])] (by decide) (by decide)⟩

/-! ## 3. Copy semantics across the cache boundary (C9)

The value model above identifies a numpy array with its contents.  To state
the aliasing property the same two code paths are given over an explicit
heap of arrays, where `.copy()` allocates a fresh array:
`return self._audio_cache[cache_key].copy()` on a hit (line 122) and
`self._audio_cache[cache_key] = audio.copy()` on a store (lines 131/136). -/

/-- A heap of numpy arrays: reference = address below `next`. -/
structure Heap where
  next : Nat
  mem : Nat → Audio

/-- In-place mutation of the array at `r` (e.g. `arr[:] = v`). -/
def Heap.write (h : Heap) (r : Nat) (v : Audio) : Heap :=
  ⟨h.next, fun x => if x = r then v else h.mem x⟩

/-- `arr.copy()`: allocate a fresh array with the same contents. -/
def Heap.copy (h : Heap) (r : Nat) : Nat × Heap :=
  (h.next, ⟨h.next + 1, fun x => if x = h.next then h.mem r else h.mem x⟩)

/-- Cache-hit path over the heap: `self._audio_cache[cache_key].copy()`. -/
def cacheHitH (h : Heap) (cache : List (CacheKey × Nat)) (k : CacheKey) :
    Option (Nat × Heap) :=
  (alookup cache k).map (fun r => h.copy r)

/-- Cache-store path over the heap: `audio.copy()` then the bounded
insert. -/
def cacheStoreH (h : Heap) (cache : List (CacheKey × Nat)) (k : CacheKey)
    (r : Nat) (maxSize : Nat) : List (CacheKey × Nat) × Heap :=
  ((cachePut cache k (h.copy r).1 maxSize), (h.copy r).2)

theorem alookup_dictInsert {α β : Type} [DecidableEq α]
    (c : List (α × β)) (k : α) (v : β) : alookup (dictInsert c k v) k = some v := by
  induction c with
  | nil => simp [dictInsert, alookup]
  | cons p rest ih =>
    obtain ⟨k', v'⟩ := p
    rw [dictInsert]
    split <;> rename_i hk
    · rw [alookup, if_pos hk]
    · rw [alookup, if_neg hk]
      exact ih

theorem alookup_cachePut {β : Type} (c : List (CacheKey × β)) (k : CacheKey)
    (v : β) (maxSize : Nat) : alookup (cachePut c k v maxSize) k = some v := by
  rw [cachePut]
  split <;> exact alookup_dictInsert _ _ _

/-- C9: values crossing the cache boundary are independent copies.  On a
hit, the array handed back is a fresh reference distinct from the stored
one, with equal contents, and mutating it leaves the stored array (hence
every other caller's view) unchanged.  On a store, the cache keeps a fresh
copy, and mutating the caller's array afterwards leaves the cached copy's
contents unchanged. -/
theorem cache_copy_isolation (h : Heap) (cache : List (CacheKey × Nat))
    (k k' : CacheKey) (rs r : Nat) (v v' : Audio)
    (hrs : alookup cache k = some rs) (hval : rs < h.next) (hr : r < h.next) :
    (cacheHitH h cache k = some ((h.copy rs).1, (h.copy rs).2) ∧
      (h.copy rs).1 ≠ rs ∧
      (h.copy rs).2.mem (h.copy rs).1 = h.mem rs ∧
      ((h.copy rs).2.write (h.copy rs).1 v).mem rs = h.mem rs) ∧
    (alookup (cacheStoreH h cache k' r maxCacheSize).1 k' = some (h.copy r).1 ∧
      (h.copy r).1 ≠ r ∧
      (((cacheStoreH h cache k' r maxCacheSize).2.write r v').mem (h.copy r).1 =
        h.mem r)) := by
  refine ⟨⟨?_, ?_, ?_, ?_⟩, ?_, ?_, ?_⟩
  · rw [cacheHitH, hrs]
    rfl
  · simp [Heap.copy]
    omega
  · simp [Heap.copy]
  · simp [Heap.copy, Heap.write]
    intro he
    omega
  · exact alookup_cachePut _ _ _ _
  · simp [Heap.copy]
    omega
  · simp [cacheStoreH, Heap.copy, Heap.write]
    intro he
    omega

/-- Witness for C9 at a concrete heap and cache. -/
theorem cache_copy_isolation_witness :
    (alookup [(k0, 0)] k0 = some 0 ∧ 0 < 2 ∧ 1 < 2) ∧
    ((cacheHitH ⟨2, fun _ => [5]⟩ [(k0, 0)] k0 =
        some (((⟨2, fun _ => [5]⟩ : Heap).copy 0).1,
          ((⟨2, fun _ => [5]⟩ : Heap).copy 0).2) ∧
      ((⟨2, fun _ => [5]⟩ : Heap).copy 0).1 ≠ 0 ∧
      ((⟨2, fun _ => [5]⟩ : Heap).copy 0).2.mem
        ((⟨2, fun _ => [5]⟩ : Heap).copy 0).1 = (⟨2, fun _ => [5]⟩ : Heap).mem 0 ∧
      (((⟨2, fun _ => [5]⟩ : Heap).copy 0).2.write
        ((⟨2, fun _ => [5]⟩ : Heap).copy 0).1 [7]).mem 0 =
        (⟨2, fun _ => [5]⟩ : Heap).mem 0) ∧
    (alookup (cacheStoreH ⟨2, fun _ => [5]⟩ [(k0, 0)] k0 1 maxCacheSize).1 k0 =
        some ((⟨2, fun _ => [5]⟩ : Heap).copy 1).1 ∧
      ((⟨2, fun _ => [5]⟩ : Heap).copy 1).1 ≠ 1 ∧
      ((cacheStoreH ⟨2, fun _ => [5]⟩ [(k0, 0)] k0 1 maxCacheSize).2.write 1
        [9]).mem ((⟨2, fun _ => [5]⟩ : Heap).copy 1).1 =
        (⟨2, fun _ => [5]⟩ : Heap).mem 1)) :=
  ⟨⟨by decide, by decide, by decide⟩,
    cache_copy_isolation ⟨2, fun _ => [5]⟩ [(k0, 0)] k0 k0 0 1 [7] [9]
      (by decide) (by decide) (by decide)⟩

/-! ## 4. PerformanceProfiler.end_timing (src/kittentts/utils.py 191-230)

State: `max_samples`, `_timings` (defaultdict name → deque of durations),
`_active_timers` (name → start time), `_counters` (name → int).  Wall-clock
instants are rationals supplied by the caller of the model. -/

structure Profiler where
  max_samples : Nat
  timings : List (String × List ℚ)
  active_timers : List (String × ℚ)
  counters : List (String × Int)
  deriving Repr, DecidableEq

/-- `PerformanceProfiler.end_timing` (utils.py lines 215-230): if the
operation has an active timer, pop it, compute the duration, and append it
to the operation's history, dropping the oldest sample at the cap;
otherwise fall through — nothing is recorded and nothing changes. -/
def Profiler.end_timing (p : Profiler) (operation : String) (endTime : ℚ) :
    Profiler :=
  match alookup p.active_timers operation with
  | none => p
  | some startTime =>
      let duration := endTime - startTime
      let history := (alookup p.timings operation).getD []
      let history' :=
        if p.max_samples ≤ history.length then history.drop 1 ++ [duration]
        else history ++ [duration]
      { p with active_timers := eraseKey p.active_timers operation,
               timings := dictInsert p.timings operation history' }

theorem alookup_eq_none_of_not_mem {α β : Type} [DecidableEq α]
    (l : List (α × β)) (k : α) (h : k ∉ l.map Prod.fst) : alookup l k = none := by
  induction l with
  | nil => rfl
  | cons p rest ih =>
    rw [alookup]
    rw [List.map_cons, List.mem_cons] at h
    push_neg at h
    rw [if_neg (fun he => h.1 he.symm)]
    exact ih h.2

theorem alookup_eraseKey_self {α β : Type} [DecidableEq α]
    (l : List (α × β)) (k : α) (h : (l.map Prod.fst).Nodup) :
    alookup (eraseKey l k) k = none := by
  induction l with
  | nil => rfl
  | cons p rest ih =>
    rw [List.map_cons, List.nodup_cons] at h
    rw [eraseKey]
    split <;> rename_i hk
    · exact alookup_eq_none_of_not_mem rest k (hk ▸ h.1)
    · rw [alookup, if_neg hk]
      exact ih h.2

/-- C10: `end_timing` for an operation with no timing in flight is a
no-op: no error, no recorded sample, all profiler state unchanged.  This
covers both an operation never started and one whose start was consumed by
a previous `end_timing` (which removes the name from the active table, so
a duplicate `end_timing` is again a no-op). -/
theorem end_timing_missing_noop (p : Profiler) (op : String) (t t' : ℚ)
    (hnodup : (p.active_timers.map Prod.fst).Nodup) :
    (alookup p.active_timers op = none → p.end_timing op t = p) ∧
    (p.end_timing op t).end_timing op t' = p.end_timing op t := by
  constructor
  · intro h
    rw [Profiler.end_timing, h]
  · cases hcase : alookup p.active_timers op with
    | none =>
      have hpp : p.end_timing op t = p := by rw [Profiler.end_timing, hcase]
      rw [hpp, Profiler.end_timing, hcase]
    | some s =>
      have h2 : alookup (p.end_timing op t).active_timers op = none := by
        rw [Profiler.end_timing, hcase]
        exact alookup_eraseKey_self _ _ hnodup
      conv_lhs => rw [Profiler.end_timing, h2]

/-- Witness for C10 at a concrete profiler state. -/
theorem end_timing_missing_noop_witness :
    ((([("other", (5 : ℚ))].map Prod.fst).Nodup) ∧
      alookup [("other", (5 : ℚ))] "realtime_generation" = none) ∧
    ((alookup (⟨1000, [("gen", [1])], [("other", 5)], [("count", 2)]⟩ :
        Profiler).active_timers "realtime_generation" = none →
      (⟨1000, [("gen", [1])], [("other", 5)], [("count", 2)]⟩ :
        Profiler).end_timing "realtime_generation" 7 =
        ⟨1000, [("gen", [1])], [("other", 5)], [("count", 2)]⟩) ∧
    ((⟨1000, [("gen", [1])], [("other", 5)], [("count", 2)]⟩ :
        Profiler).end_timing "realtime_generation" 7).end_timing
        "realtime_generation" 8 =
      (⟨1000, [("gen", [1])], [("other", 5)], [("count", 2)]⟩ :
        Profiler).end_timing "realtime_generation" 7) :=
  ⟨⟨by decide, by decide⟩,
    end_timing_missing_noop ⟨1000, [("gen", [1])], [("other", 5)], [("count", 2)]⟩
      "realtime_generation" 7 8 (by decide)⟩

/-! ## 5. The delivery loop of `RealtimeKittenTTS.generate_streaming`
(src/kittentts/realtime_engine.py lines 143-197)

The generator submits one job per chunk, keeps the pending `(ordinal,
future)` pairs in a list (always in ascending ordinal order: ordinals are
appended in order and only removed), and after each submission — once
`len(futures) >= max_workers` or at the last chunk — runs a drain pass:
it polls which pending futures are done, iterates them in sorted (already
ascending) order, and for each one yields its result and removes it, or
logs and keeps it if `result()` raised.  A final blocking loop drains the
rest, logging and skipping failures.

The model abstracts the scheduler with two oracles: `done i j` — whether
chunk `j`'s future polls as completed during the drain pass of loop
iteration `i` — and `ok j` — whether chunk `j`'s render succeeds.  It
returns the sequence of yielded chunk ordinals; all exceptions are caught
by the loops, so the run always returns normally (total function). -/

/-- The generator loop: `todo` is the list of chunk ordinals not yet
submitted (initially `range K`), `pending` the submitted, undelivered
ones. -/
def streamLoop (W K : Nat) (done : Nat → Nat → Bool) (ok : Nat → Bool) :
    List Nat → List Nat → List Nat
  | [], pending => pending.filter (fun j => ok j)
  | i :: todo, pending =>
      let pending' := pending ++ [i]
      if W ≤ pending'.length ∨ i = K - 1 then
        pending'.filter (fun j => done i j && ok j) ++
          streamLoop W K done ok todo
            (pending'.filter (fun j => !(done i j && ok j)))
      else streamLoop W K done ok todo pending'

/-- The ordinals yielded by one full consumption of
`generate_streaming` over `K` chunks with `W = max_workers`. -/
def streamingYields (W K : Nat) (done : Nat → Nat → Bool) (ok : Nat → Bool) :
    List Nat :=
  streamLoop W K done ok (List.range K) []

theorem filter_split_perm (p q : Nat → Bool) (l : List Nat) :
    (l.filter (fun j => q j)).Perm
      (l.filter (fun j => p j && q j) ++
        (l.filter (fun j => !(p j && q j))).filter (fun j => q j)) := by
  induction l with
  | nil => rfl
  | cons x t ih =>
    by_cases hp : p x = true <;> by_cases hq : q x = true
    · rw [List.filter_cons_of_pos (by simp [hq]),
        List.filter_cons_of_pos (by simp [hp, hq]),
        List.filter_cons_of_neg (by simp [hp, hq]), List.cons_append]
      exact ih.cons x
    · rw [List.filter_cons_of_neg (by simp [hq]),
        List.filter_cons_of_neg (by simp [hp, hq]),
        List.filter_cons_of_pos (by simp [hp, hq]),
        List.filter_cons_of_neg (by simp [hq])]
      exact ih
    · rw [List.filter_cons_of_pos (by simp [hq]),
        List.filter_cons_of_neg (by simp [hp, hq]),
        List.filter_cons_of_pos (by simp [hp, hq]),
        List.filter_cons_of_pos (by simp [hq])]
      exact (ih.cons x).trans List.perm_middle.symm
    · rw [List.filter_cons_of_neg (by simp [hq]),
        List.filter_cons_of_neg (by simp [hp, hq]),
        List.filter_cons_of_pos (by simp [hp, hq]),
        List.filter_cons_of_neg (by simp [hq])]
      exact ih

theorem streamLoop_perm (W K : Nat) (done : Nat → Nat → Bool)
    (ok : Nat → Bool) (todo : List Nat) :
    ∀ pending : List Nat,
      (streamLoop W K done ok todo pending).Perm
        ((pending ++ todo).filter (fun j => ok j)) := by
  induction todo with
  | nil =>
    intro pending
    rw [streamLoop, List.append_nil]
  | cons i todo ih =>
    intro pending
    rw [streamLoop]
    split
    · refine ((ih _).append_left _).trans ?_
      rw [List.filter_append _ todo, ← List.append_assoc]
      refine (((filter_split_perm (done i) ok (pending ++ [i])).symm).append_right
        _).trans ?_
      rw [← List.filter_append, List.append_assoc, List.singleton_append]
    · refine (ih _).trans ?_
      rw [List.append_assoc, List.singleton_append]

/-- C1 counterexample: three chunks, two workers, all renders succeed, but
chunk 1 completes before chunk 0 (visible at the drain pass of iteration
1).  The delivered ordinals are `[1, 0, 2]` — not in increasing ordinal
order: nothing holds chunk 1 back until chunk 0 is released. -/
theorem streaming_order_counterexample :
    streamingYields 2 3 (fun i j => !(i == 1 && j == 0)) (fun _ => true) =
      [1, 0, 2] ∧
    streamingYields 2 3 (fun i j => !(i == 1 && j == 0)) (fun _ => true) ≠
      [0, 1, 2] := by
  constructor <;> decide

/-- C1 amended: the delivered ordinals are a permutation of `0..K-1` —
every chunk is delivered exactly once, for every completion schedule and
worker count — but delivery order follows completion order across drain
passes, not the ordinal order. -/
theorem streaming_delivers_all_once (W K : Nat) (done : Nat → Nat → Bool) :
    (streamingYields W K done (fun _ => true)).Perm (List.range K) := by
  refine (streamLoop_perm W K done (fun _ => true) (List.range K) []).trans ?_
  rw [List.nil_append, List.filter_true]

/-- C3: if one chunk's render raises: in streaming the chunk is skipped
and the stream still delivers exactly the successful chunks (each once,
the run returning normally — every `result()` call sits in a
`try/except`); in the blocking `generate_fast` the exception propagates
and the call aborts with no partial result and no cache write. -/
theorem chunk_failure_policy (W K : Nat) (done : Nat → Nat → Bool)
    (ok : Nat → Bool)
    (render : List Char → List Char → ℚ → Except TTSError Audio)
    (cache : List (CacheKey × Audio)) (text voice : List Char) (speed : ℚ)
    (useCache : Bool) (e : TTSError)
    (hrender : render text voice speed = .error e)
    (hmiss : alookup cache ⟨text, voice, speed⟩ = none) :
    (streamingYields W K done ok).Perm
      ((List.range K).filter (fun j => ok j)) ∧
    generate_fast render cache text voice speed useCache = .error e := by
  constructor
  · refine (streamLoop_perm W K done ok (List.range K) []).trans ?_
    rw [List.nil_append]
  · rw [generate_fast]
    cases useCache with
    | true => rw [if_pos rfl, hmiss, hrender]
    | false => rw [if_neg (by simp), hrender]

/-- Witness for C3: one failing chunk out of two is skipped in streaming
and aborts the blocking call. -/
theorem chunk_failure_policy_witness :
    ((fun _ _ _ => Except.error TTSError.renderFailure :
        List Char → List Char → ℚ → Except TTSError Audio)
      "x".toList "v".toList 1 = .error TTSError.renderFailure ∧
    alookup ([] : List (CacheKey × Audio)) ⟨"x".toList, "v".toList, 1⟩ = none) ∧
    ((streamingYields 2 2 (fun _ _ => true) (fun j => j == 1)).Perm
      ((List.range 2).filter (fun j => j == 1)) ∧
    generate_fast (fun _ _ _ => Except.error TTSError.renderFailure) []
      "x".toList "v".toList 1 true = .error TTSError.renderFailure) :=
  ⟨⟨rfl, rfl⟩,
    chunk_failure_policy 2 2 (fun _ _ => true) (fun j => j == 1)
      (fun _ _ _ => Except.error TTSError.renderFailure) [] "x".toList
      "v".toList 1 true TTSError.renderFailure rfl rfl⟩

/-! ## 6. Text chunking (src/kittentts/utils.py, class TextChunker, and
src/kittentts/realtime_engine.py, `_split_text_for_streaming`)

Python strings are lists of characters; `len`, `str.strip`, `str.split()`
and the two `re.split` patterns are modelled below.  `\s` is the ASCII
whitespace class (the repository's texts are ASCII). -/

def isPySpace (c : Char) : Bool :=
  c == ' ' || c == '\t' || c == '\n' || c == '\r' || c == '\x0b' || c == '\x0c'

/-- The sentence-ending class `[.!?]` of both `re.split` patterns. -/
def isSentEnd (c : Char) : Bool :=
  c == '.' || c == '!' || c == '?'

/-- `str.strip()`: drop whitespace from both ends. -/
def pyStrip (l : List Char) : List Char :=
  ((l.dropWhile isPySpace).reverse.dropWhile isPySpace).reverse

/-- Split at every single character satisfying `p` (pieces may be empty). -/
def splitP (p : Char → Bool) : List Char → List (List Char)
  | [] => [[]]
  | c :: rest =>
      match splitP p rest with
      | [] => [[c]]
      | h :: t => if p c then [] :: h :: t else (c :: h) :: t

/-- `str.split()`: maximal whitespace-free runs, empties discarded. -/
def pyWords (l : List Char) : List (List Char) :=
  (splitP isPySpace l).filter (fun w => !w.isEmpty)

def prependPiece (pre : List Char) : List (List Char) → List (List Char)
  | [] => [pre]
  | h :: t => (pre ++ h) :: t

/-- `re.split(r'[.!?]+\s+', text)` (utils.py line 366-367): a match is a
maximal run of sentence enders followed by a maximal run of whitespace; the
pieces between matches are returned.  An ender run not followed by
whitespace matches nowhere (the `\s+` fails at every start inside the run)
and stays literal text.  The fuel argument (`≥ length` at every call) makes
the leftmost-match recursion structural. -/
def splitSent : Nat → List Char → List (List Char)
  | _, [] => [[]]
  | 0, l => [l]
  | fuel + 1, c :: rest =>
      if isSentEnd c then
        match (rest.dropWhile isSentEnd).head? with
        | some c2 =>
            if isPySpace c2 then
              [] :: splitSent fuel ((rest.dropWhile isSentEnd).dropWhile isPySpace)
            else
              prependPiece (c :: rest.takeWhile isSentEnd)
                (splitSent fuel (rest.dropWhile isSentEnd))
        | none => [c :: rest.takeWhile isSentEnd]
      else prependPiece [c] (splitSent fuel rest)

/-- `TextChunker._split_sentences` (utils.py lines 362-368): split, strip,
drop the pieces that strip to nothing. -/
def pySentences (l : List Char) : List (List Char) :=
  ((splitSent l.length l).map pyStrip).filter (fun s => !s.isEmpty)

/-- `re.split(r'[.!?]+', text)` (realtime_engine.py line 234): split at
maximal ender runs, no whitespace requirement. -/
def splitEnd : Nat → List Char → List (List Char)
  | _, [] => [[]]
  | 0, l => [l]
  | fuel + 1, c :: rest =>
      if isSentEnd c then [] :: splitEnd fuel (rest.dropWhile isSentEnd)
      else prependPiece [c] (splitEnd fuel rest)

/-- `RealtimeKittenTTS._split_into_sentences` (realtime_engine.py
lines 230-235). -/
def pySentencesRT (l : List Char) : List (List Char) :=
  ((splitEnd l.length l).map pyStrip).filter (fun s => !s.isEmpty)

/-- The accumulate-or-flush step shared verbatim by the sentence loop and
the clause-chunk loop of `TextChunker.chunk_text` (utils.py lines 342-354)
and by the sentence loop of `_split_text_for_streaming`
(realtime_engine.py lines 216-222): if adding the unit would exceed the
limit (the joining space is not counted) and the current chunk is
nonempty, flush `current.strip()` and restart from the unit; otherwise
append with a single joining space. -/
def accumStep (N : Nat) (st : List (List Char) × List Char) (u : List Char) :
    List (List Char) × List Char :=
  if N < st.2.length + u.length ∧ st.2 ≠ [] then (st.1 ++ [pyStrip st.2], u)
  else (st.1, if st.2 = [] then u else st.2 ++ ' ' :: u)

/-- The word step of `TextChunker._split_long_sentence` (utils.py lines
377-388): the check counts the joining space (`+ 1`); both the
clause-break branch and the forced-break branch append
`current_chunk.strip()` and restart from the word, so the
`any(end in current_chunk[-5:] ...)` test does not affect the result. -/
def wordStep (N : Nat) (st : List (List Char) × List Char) (w : List Char) :
    List (List Char) × List Char :=
  if N < st.2.length + w.length + 1 ∧ st.2 ≠ [] then (st.1 ++ [pyStrip st.2], w)
  else (st.1, if st.2 = [] then w else st.2 ++ ' ' :: w)

/-- `if current_chunk: chunks.append(current_chunk.strip())`. -/
def finishChunks (st : List (List Char) × List Char) : List (List Char) :=
  if st.2 = [] then st.1 else st.1 ++ [pyStrip st.2]

/-- `TextChunker._split_long_sentence` (utils.py lines 370-393). -/
def split_long_sentence (N : Nat) (s : List Char) : List (List Char) :=
  finishChunks ((pyWords s).foldl (wordStep N) ([], []))

/-- The per-sentence step of `chunk_text` (utils.py lines 337-354): a
sentence longer than the limit is first split into clause chunks and each
is merged; a short sentence is merged directly. -/
def sentenceStep (N : Nat) (st : List (List Char) × List Char)
    (s : List Char) : List (List Char) × List Char :=
  if N < s.length then (split_long_sentence N s).foldl (accumStep N) st
  else accumStep N st s

/-- `TextChunker.chunk_text` (utils.py lines 319-360) with
`max_chunk_size = N`. -/
def chunk_text (N : Nat) (text : List Char) : List (List Char) :=
  if text.length ≤ N then [pyStrip text]
  else
    (finishChunks ((pySentences text).foldl (sentenceStep N)
      ([], []))).filter (fun c => !c.isEmpty)

/-- `RealtimeKittenTTS._split_text_for_streaming` (realtime_engine.py
lines 199-228): note the `≤ max` case returns the text unstripped, and
there is no final empty-filter. -/
def split_text_for_streaming (text : List Char) (maxChunk : Nat) :
    List (List Char) :=
  if text.length ≤ maxChunk then [text]
  else finishChunks ((pySentencesRT text).foldl (accumStep maxChunk) ([], []))

theorem length_dropWhile_le (p : Char → Bool) (l : List Char) :
    (l.dropWhile p).length ≤ l.length := by
  induction l with
  | nil => simp
  | cons c rest ih =>
    rw [List.dropWhile_cons]
    split
    · exact Nat.le_trans ih (by simp)
    · exact Nat.le_refl _

theorem pyStrip_length_le (l : List Char) : (pyStrip l).length ≤ l.length := by
  rw [pyStrip, List.length_reverse]
  refine Nat.le_trans (length_dropWhile_le _ _) ?_
  rw [List.length_reverse]
  exact length_dropWhile_le _ _

theorem pyStrip_infix (l : List Char) : pyStrip l <:+: l := by
  rw [pyStrip]
  have h1 : l.dropWhile isPySpace <:+ l := List.dropWhile_suffix _
  have h2 : ((l.dropWhile isPySpace).reverse.dropWhile isPySpace).reverse <+:
      l.dropWhile isPySpace := by
    have h3 := List.reverse_prefix.mpr
      (List.dropWhile_suffix (l := (l.dropWhile isPySpace).reverse) isPySpace)
    simpa using h3
  exact h2.isInfix.trans h1.isInfix

/-- C8 counterexample: with `max_chunk_size = 4` and input `"ab. cd. ef"`
(every whitespace word has at most 4 characters) the first returned
segment is `"ab cd"`, 5 characters — the size check ignores the joining
space; the segments' words are `ab cd ef`, not the original words
`ab. cd. ef` — the sentence-ending punctuation is deleted by the split;
and the input `" "` (length ≤ 4) is returned as the single empty segment
`""`, not unchanged. -/
theorem chunk_text_counterexample :
    chunk_text 4 "ab. cd. ef".toList = ["ab cd".toList, "ef".toList] ∧
    4 < ("ab cd".toList).length ∧
    (∀ w ∈ pyWords "ab. cd. ef".toList, w.length ≤ 4) ∧
    ((chunk_text 4 "ab. cd. ef".toList).map pyWords).flatten ≠
      pyWords "ab. cd. ef".toList ∧
    chunk_text 4 " ".toList = [[]] := by
  refine ⟨by decide, by decide, by decide, by decide, by decide⟩

theorem cons_prefix_cons_of (c : Char) {l₁ l₂ : List Char} (h : l₁ <+: l₂) :
    c :: l₁ <+: c :: l₂ := by
  obtain ⟨s, hs⟩ := h
  exact ⟨s, by rw [List.cons_append, hs]⟩

theorem splitP_cons_form (p : Char → Bool) (l : List Char) :
    ∃ h t, splitP p l = h :: t ∧ h <+: l ∧ ∀ w ∈ t, w <:+: l := by
  induction l with
  | nil => exact ⟨[], [], rfl, List.nil_prefix, by simp⟩
  | cons c rest ih =>
    obtain ⟨h, t, heq, hpre, htail⟩ := ih
    rw [splitP, heq]
    dsimp only
    by_cases hc : p c = true
    · rw [if_pos hc]
      refine ⟨[], h :: t, rfl, List.nil_prefix, ?_⟩
      intro w hw
      rcases List.mem_cons.mp hw with hw | hw
      · exact hw ▸ List.infix_cons hpre.isInfix
      · exact List.infix_cons (htail w hw)
    · rw [if_neg hc]
      refine ⟨c :: h, t, rfl, cons_prefix_cons_of c hpre, ?_⟩
      intro w hw
      exact List.infix_cons (htail w hw)

theorem splitP_chars (p : Char → Bool) (l : List Char) :
    ∀ w ∈ splitP p l, ∀ c ∈ w, p c = false := by
  induction l with
  | nil =>
    intro w hw
    rw [splitP, List.mem_singleton] at hw
    simp [hw]
  | cons c rest ih =>
    obtain ⟨h, t, heq, -, -⟩ := splitP_cons_form p rest
    intro w hw
    rw [splitP, heq] at hw
    dsimp only at hw
    by_cases hc : p c = true
    · rw [if_pos hc, List.mem_cons] at hw
      rcases hw with hw | hw
      · simp [hw]
      · exact ih w (heq ▸ hw)
    · rw [if_neg hc, List.mem_cons] at hw
      rcases hw with hw | hw
      · subst hw
        intro d hd
        rcases List.mem_cons.mp hd with hd | hd
        · subst hd
          exact eq_false_of_ne_true hc
        · exact ih h (heq ▸ List.mem_cons_self h t) d hd
      · exact ih w (heq ▸ List.mem_cons_of_mem h hw)

/-- Every `str.split()` word is a nonempty whitespace-free contiguous
substring of the input. -/
theorem pyWords_spec (l : List Char) :
    ∀ w ∈ pyWords l, w ≠ [] ∧ w <:+: l ∧ ∀ c ∈ w, isPySpace c = false := by
  intro w hw
  rw [pyWords, List.mem_filter] at hw
  obtain ⟨hmem, hne⟩ := hw
  refine ⟨by simpa [List.isEmpty_iff] using hne, ?_,
    splitP_chars isPySpace l w hmem⟩
  obtain ⟨h, t, heq, hpre, htail⟩ := splitP_cons_form isPySpace l
  rw [heq, List.mem_cons] at hmem
  rcases hmem with hmem | hmem
  · exact hmem ▸ hpre.isInfix
  · exact htail w hmem

/-- The pieces produced by `re.split(r'[.!?]+\s+', ·)` are contiguous
substrings of the input (the head piece is a prefix). -/
theorem splitSent_cons_form (fuel : Nat) :
    ∀ l : List Char, l.length ≤ fuel →
      ∃ h t, splitSent fuel l = h :: t ∧ h <+: l ∧ ∀ w ∈ t, w <:+: l := by
  induction fuel with
  | zero =>
    intro l hl
    rw [List.length_eq_zero.mp (Nat.le_zero.mp hl)]
    exact ⟨[], [], rfl, List.nil_prefix, by simp⟩
  | succ fuel ih =>
    intro l hl
    cases l with
    | nil => exact ⟨[], [], rfl, List.nil_prefix, by simp⟩
    | cons c rest =>
      rw [splitSent]
      by_cases hc : isSentEnd c = true
      · rw [if_pos hc]
        have hsuf1 : rest.dropWhile isSentEnd <:+ rest := List.dropWhile_suffix _
        cases hhead : (rest.dropWhile isSentEnd).head? with
        | none =>
          dsimp only
          exact ⟨c :: rest.takeWhile isSentEnd, [], rfl,
            cons_prefix_cons_of c (List.takeWhile_prefix _), by simp⟩
        | some c2 =>
          dsimp only
          by_cases hsp : isPySpace c2 = true
          · rw [if_pos hsp]
            have hsuf2 : (rest.dropWhile isSentEnd).dropWhile isPySpace <:+
                rest.dropWhile isSentEnd := List.dropWhile_suffix _
            have hlen : ((rest.dropWhile isSentEnd).dropWhile isPySpace).length ≤
                fuel := by
              have := length_dropWhile_le isPySpace (rest.dropWhile isSentEnd)
              have := length_dropWhile_le isSentEnd rest
              simp at hl
              omega
            obtain ⟨h, t, heq, hpre, htail⟩ :=
              ih ((rest.dropWhile isSentEnd).dropWhile isPySpace) hlen
            refine ⟨[], h :: t, by rw [heq], List.nil_prefix, ?_⟩
            have hsuf : (rest.dropWhile isSentEnd).dropWhile isPySpace <:+
                c :: rest := (hsuf2.trans hsuf1).trans (List.suffix_cons c rest)
            intro w hw
            rcases List.mem_cons.mp hw with hw | hw
            · exact hw ▸ hpre.isInfix.trans hsuf.isInfix
            · exact (htail w hw).trans hsuf.isInfix
          · rw [if_neg hsp]
            have hlen : (rest.dropWhile isSentEnd).length ≤ fuel := by
              have := length_dropWhile_le isSentEnd rest
              simp at hl
              omega
            obtain ⟨h, t, heq, hpre, htail⟩ :=
              ih (rest.dropWhile isSentEnd) hlen
            rw [heq, prependPiece]
            refine ⟨(c :: rest.takeWhile isSentEnd) ++ h, t, rfl, ?_, ?_⟩
            · obtain ⟨s, hs⟩ := hpre
              refine ⟨s, ?_⟩
              rw [List.cons_append, List.cons_append, List.append_assoc, hs]
              rw [List.takeWhile_append_dropWhile]
            · intro w hw
              exact (htail w hw).trans
                ((List.dropWhile_suffix _).trans (List.suffix_cons c rest)).isInfix
      · rw [if_neg hc]
        have hlen : rest.length ≤ fuel := by
          simp at hl
          omega
        obtain ⟨h, t, heq, hpre, htail⟩ := ih rest hlen
        rw [heq, prependPiece]
        refine ⟨[c] ++ h, t, rfl, ?_, ?_⟩
        · obtain ⟨s, hs⟩ := hpre
          exact ⟨s, by rw [List.singleton_append, List.cons_append, hs]⟩
        · intro w hw
          exact List.infix_cons (htail w hw)

theorem splitP_append_nonmatch (p : Char → Bool) (x y : List Char)
    (hx : ∀ c ∈ x, p c = false) :
    splitP p (x ++ y) = prependPiece x (splitP p y) := by
  induction x with
  | nil =>
    obtain ⟨h, t, heq, -, -⟩ := splitP_cons_form p y
    rw [List.nil_append, heq, prependPiece, List.nil_append]
  | cons c x ih =>
    have hx' : ∀ d ∈ x, p d = false := fun d hd => hx d (List.mem_cons_of_mem c hd)
    obtain ⟨h, t, heq, -, -⟩ := splitP_cons_form p y
    rw [List.cons_append, splitP, ih hx', heq]
    simp only [prependPiece]
    rw [if_neg (by rw [hx c (List.mem_cons_self c x)]; simp), List.cons_append]

theorem word_infix_le (w : List Char) (hne : w ≠ [])
    (hns : ∀ c ∈ w, isPySpace c = false) :
    ∀ a b : List Char, ∃ u ∈ pyWords (a ++ (w ++ b)), w.length ≤ u.length := by
  intro a
  induction a with
  | nil =>
    intro b
    obtain ⟨h, t, heq, -, -⟩ := splitP_cons_form isPySpace b
    refine ⟨w ++ h, ?_, by simp⟩
    rw [List.nil_append, pyWords, splitP_append_nonmatch isPySpace w b hns, heq,
      prependPiece, List.mem_filter]
    refine ⟨List.mem_cons_self _ _, ?_⟩
    simp [List.isEmpty_iff, hne]
  | cons ch a ih =>
    intro b
    rw [List.cons_append]
    by_cases hch : isPySpace ch = true
    · obtain ⟨h, t, heq, -, -⟩ := splitP_cons_form isPySpace (a ++ (w ++ b))
      have hpw : pyWords (ch :: (a ++ (w ++ b))) = pyWords (a ++ (w ++ b)) := by
        rw [pyWords, pyWords, splitP, heq]
        dsimp only
        rw [if_pos hch, List.filter_cons_of_neg (by simp)]
      rw [hpw]
      exact ih b
    · obtain ⟨h, t, heq, -, -⟩ := splitP_cons_form isPySpace (a ++ (w ++ b))
      obtain ⟨u, hu, hlen⟩ := ih b
      have hpw : pyWords (ch :: (a ++ (w ++ b))) =
          (ch :: h) :: t.filter (fun v => !v.isEmpty) := by
        rw [pyWords, splitP, heq]
        dsimp only
        rw [if_neg hch, List.filter_cons_of_pos (by simp)]
      rw [pyWords, heq, List.filter_cons] at hu
      rw [hpw]
      split at hu
      · rcases List.mem_cons.mp hu with hu | hu
        · refine ⟨ch :: h, List.mem_cons_self _ _, ?_⟩
          rw [hu] at hlen
          simp only [List.length_cons]
          omega
        · exact ⟨u, List.mem_cons_of_mem _ hu, hlen⟩
      · exact ⟨u, List.mem_cons_of_mem _ hu, hlen⟩

theorem pySentences_words_le (text : List Char) (N : Nat)
    (hwords : ∀ w ∈ pyWords text, w.length ≤ N) :
    ∀ s ∈ pySentences text, ∀ w ∈ pyWords s, w.length ≤ N := by
  intro s hs w hw
  rw [pySentences, List.mem_filter, List.mem_map] at hs
  obtain ⟨⟨piece, hpiece, hsp⟩, -⟩ := hs
  obtain ⟨hwne, hwinf, hwns⟩ := pyWords_spec s w hw
  have hpieceinf : piece <:+: text := by
    obtain ⟨h, t, heq, hpre, htail⟩ := splitSent_cons_form text.length text le_rfl
    rw [heq] at hpiece
    rcases List.mem_cons.mp hpiece with h1 | h1
    · exact h1 ▸ hpre.isInfix
    · exact htail piece h1
  have hsinf : s <:+: text := (hsp ▸ pyStrip_infix piece).trans hpieceinf
  obtain ⟨a, b, hab⟩ := hwinf.trans hsinf
  obtain ⟨u, hu, hlen⟩ := word_infix_le w hwne hwns a b
  rw [← List.append_assoc, hab] at hu
  exact Nat.le_trans hlen (hwords u hu)

theorem wordStep_inv (N : Nat) (st : List (List Char) × List Char)
    (w : List Char) (hw : w.length ≤ N)
    (h : (∀ c ∈ st.1, c.length ≤ N) ∧ st.2.length ≤ N) :
    (∀ c ∈ (wordStep N st w).1, c.length ≤ N) ∧
      (wordStep N st w).2.length ≤ N := by
  rw [wordStep]
  split <;> rename_i hc
  · refine ⟨?_, hw⟩
    intro c hcm
    rcases List.mem_append.mp hcm with h1 | h1
    · exact h.1 c h1
    · rw [List.mem_singleton] at h1
      exact h1 ▸ Nat.le_trans (pyStrip_length_le _) h.2
  · refine ⟨h.1, ?_⟩
    split <;> rename_i h2
    · exact hw
    · have h3 : ¬ (N < st.2.length + w.length + 1) := fun hlt => hc ⟨hlt, h2⟩
      simp only [List.length_append, List.length_cons]
      omega

theorem foldl_wordStep_inv (N : Nat) (ws : List (List Char))
    (hws : ∀ w ∈ ws, w.length ≤ N) :
    ∀ st : List (List Char) × List Char,
      (∀ c ∈ st.1, c.length ≤ N) ∧ st.2.length ≤ N →
      (∀ c ∈ (ws.foldl (wordStep N) st).1, c.length ≤ N) ∧
        (ws.foldl (wordStep N) st).2.length ≤ N := by
  induction ws with
  | nil => intro st h; exact h
  | cons w ws ih =>
    intro st h
    rw [List.foldl_cons]
    exact ih (fun v hv => hws v (List.mem_cons_of_mem w hv)) _
      (wordStep_inv N st w (hws w (List.mem_cons_self w ws)) h)

theorem split_long_le (N : Nat) (s : List Char)
    (hw : ∀ w ∈ pyWords s, w.length ≤ N) :
    ∀ c ∈ split_long_sentence N s, c.length ≤ N := by
  have h := foldl_wordStep_inv N (pyWords s) hw ([], []) ⟨by simp, by simp⟩
  intro c hc
  rw [split_long_sentence, finishChunks] at hc
  split at hc
  · exact h.1 c hc
  · rcases List.mem_append.mp hc with h1 | h1
    · exact h.1 c h1
    · rw [List.mem_singleton] at h1
      exact h1 ▸ Nat.le_trans (pyStrip_length_le _) h.2

theorem accumStep_inv (N : Nat) (st : List (List Char) × List Char)
    (u : List Char) (hu : u.length ≤ N)
    (h : (∀ c ∈ st.1, c.length ≤ N + 1) ∧ st.2.length ≤ N + 1) :
    (∀ c ∈ (accumStep N st u).1, c.length ≤ N + 1) ∧
      (accumStep N st u).2.length ≤ N + 1 := by
  rw [accumStep]
  split <;> rename_i hc
  · refine ⟨?_, Nat.le_trans hu (Nat.le_succ N)⟩
    intro c hcm
    rcases List.mem_append.mp hcm with h1 | h1
    · exact h.1 c h1
    · rw [List.mem_singleton] at h1
      exact h1 ▸ Nat.le_trans (pyStrip_length_le _) h.2
  · refine ⟨h.1, ?_⟩
    split <;> rename_i h2
    · exact Nat.le_trans hu (Nat.le_succ N)
    · have h3 : ¬ (N < st.2.length + u.length) := fun hlt => hc ⟨hlt, h2⟩
      simp only [List.length_append, List.length_cons]
      omega

theorem foldl_accumStep_inv (N : Nat) (us : List (List Char))
    (hus : ∀ u ∈ us, u.length ≤ N) :
    ∀ st : List (List Char) × List Char,
      (∀ c ∈ st.1, c.length ≤ N + 1) ∧ st.2.length ≤ N + 1 →
      (∀ c ∈ (us.foldl (accumStep N) st).1, c.length ≤ N + 1) ∧
        (us.foldl (accumStep N) st).2.length ≤ N + 1 := by
  induction us with
  | nil => intro st h; exact h
  | cons u us ih =>
    intro st h
    rw [List.foldl_cons]
    exact ih (fun v hv => hus v (List.mem_cons_of_mem u hv)) _
      (accumStep_inv N st u (hus u (List.mem_cons_self u us)) h)

theorem foldl_sentenceStep_inv (N : Nat) (ss : List (List Char))
    (hss : ∀ s ∈ ss, ∀ w ∈ pyWords s, w.length ≤ N) :
    ∀ st : List (List Char) × List Char,
      (∀ c ∈ st.1, c.length ≤ N + 1) ∧ st.2.length ≤ N + 1 →
      (∀ c ∈ (ss.foldl (sentenceStep N) st).1, c.length ≤ N + 1) ∧
        (ss.foldl (sentenceStep N) st).2.length ≤ N + 1 := by
  induction ss with
  | nil => intro st h; exact h
  | cons s ss ih =>
    intro st h
    rw [List.foldl_cons]
    refine ih (fun v hv => hss v (List.mem_cons_of_mem s hv)) _ ?_
    rw [sentenceStep]
    split <;> rename_i hlong
    · exact foldl_accumStep_inv N (split_long_sentence N s)
        (split_long_le N s (hss s (List.mem_cons_self s ss))) st h
    · exact accumStep_inv N st s (by omega) h

/-- C8 amended: if the input fits in one chunk it is returned *stripped*
(not unchanged); otherwise every returned segment is nonempty, and — as
long as no single whitespace-delimited word of the input exceeds `N` —
every segment has at most `N + 1` characters (the joining space is not
counted by the size check, so segments can exceed `N` by one).  The
original words are *not* reproduced: sentence-ending punctuation preceding
whitespace is deleted by the splitting step, as the counterexample
records. -/
theorem chunk_text_amended (N : Nat) (text : List Char)
    (hwords : ∀ w ∈ pyWords text, w.length ≤ N) :
    (text.length ≤ N → chunk_text N text = [pyStrip text]) ∧
    (N < text.length → ∀ c ∈ chunk_text N text, c ≠ [] ∧ c.length ≤ N + 1) := by
  constructor
  · intro h
    rw [chunk_text, if_pos h]
  · intro hlen c hc
    rw [chunk_text, if_neg (by omega)] at hc
    rw [List.mem_filter] at hc
    obtain ⟨hcm, hcne⟩ := hc
    refine ⟨by simpa [List.isEmpty_iff] using hcne, ?_⟩
    have h := foldl_sentenceStep_inv N (pySentences text)
      (pySentences_words_le text N hwords) ([], []) ⟨by simp, by simp⟩
    rw [finishChunks] at hcm
    split at hcm
    · exact h.1 c hcm
    · rcases List.mem_append.mp hcm with h1 | h1
      · exact h.1 c h1
      · rw [List.mem_singleton] at h1
        exact h1 ▸ Nat.le_trans (pyStrip_length_le _) h.2

/-- Witness for C8's amended theorem at a concrete chunking. -/
theorem chunk_text_amended_witness :
    (∀ w ∈ pyWords "ab. cd. ef".toList, w.length ≤ 4) ∧
    ((("ab. cd. ef".toList).length ≤ 4 →
        chunk_text 4 "ab. cd. ef".toList = [pyStrip "ab. cd. ef".toList]) ∧
      (4 < ("ab. cd. ef".toList).length →
        ∀ c ∈ chunk_text 4 "ab. cd. ef".toList, c ≠ [] ∧ c.length ≤ 4 + 1)) :=
  ⟨by decide, chunk_text_amended 4 "ab. cd. ef".toList (by decide)⟩

/-! ## 7. Input validation (C4)

`KittenTTS_1_Onnx._prepare_inputs` (onnx_model.py lines 169-217) starts
with the only validation in the pipeline: `if voice not in
self.available_voices: raise ValueError(...)`.  Everything after it
(phonemizer — whose failure is caught and replaced by a fallback —,
tokenizer, ONNX session) is external and abstracted as `run`; `generate`
re-raises any exception, so the error kind reaching the caller is a
render failure either way.  Neither empty text nor non-positive speed is
ever checked. -/

/-- `self.available_voices` (onnx_model.py lines 109-112). -/
def availableVoices : List (List Char) :=
  ["expr-voice-2-m".toList, "expr-voice-2-f".toList, "expr-voice-3-m".toList,
   "expr-voice-3-f".toList, "expr-voice-4-m".toList, "expr-voice-4-f".toList,
   "expr-voice-5-m".toList, "expr-voice-5-f".toList]

/-- `KittenTTS_1_Onnx.generate`: the voice check of `_prepare_inputs`,
then the abstract phonemize/tokenize/inference pipeline `run`. -/
def renderModel (run : List Char → List Char → ℚ → Except TTSError Audio)
    (text voice : List Char) (speed : ℚ) : Except TTSError Audio :=
  if voice ∈ availableVoices then run text voice speed
  else .error .invalidVoice

/-- The jobs submitted by `generate_streaming` (realtime_engine.py lines
166-169): one `executor.submit(self.generate_fast, chunk, voice, speed,
True)` per chunk of `_split_text_for_streaming(text, chunk_size)`.
Nothing is validated before the first submission. -/
def streamingDispatched (text voice : List Char) (speed : ℚ)
    (chunkSize : Nat) : List (List Char × List Char × ℚ) :=
  (split_text_for_streaming text chunkSize).map (fun c => (c, voice, speed))

theorem streamingYields_all_fail (W K : Nat) (done : Nat → Nat → Bool)
    (ok : Nat → Bool) (hok : ∀ i, ok i = false) :
    streamingYields W K done ok = [] := by
  have h := streamLoop_perm W K done ok (List.range K) []
  rw [List.nil_append] at h
  have h2 : (List.range K).filter (fun j => ok j) = [] :=
    List.filter_eq_nil_iff.mpr (fun a _ => by simp [hok a])
  rw [h2] at h
  exact h.eq_nil

/-- C4 counterexample: for the unknown voice `"bad-voice"` the streaming
call still dispatches its chunk job to the pool — the failure happens
inside the worker, is swallowed there, and the stream just yields nothing;
and a blocking call with *empty text* (a benign session) succeeds — empty
text is never validated.  Nothing fails synchronously before dispatch. -/
theorem invalid_input_counterexample :
    ("bad-voice".toList ∉ availableVoices) ∧
    streamingDispatched "hi".toList "bad-voice".toList 1 100 =
      [("hi".toList, "bad-voice".toList, 1)] ∧
    streamingYields 4 1 (fun _ _ => true)
      (fun _ => (generate_fast (renderModel (fun _ _ _ => .ok [1])) []
        "hi".toList "bad-voice".toList 1 true).isOk) = [] ∧
    generate_fast (renderModel (fun _ _ _ => .ok [1])) [] []
        "expr-voice-5-m".toList 1 true =
      .ok ([1], cachePut [] ⟨[], "expr-voice-5-m".toList, 1⟩ [1] maxCacheSize) := by
  refine ⟨by decide, by decide, ?_, rfl⟩
  exact streamingYields_all_fail 4 1 _ _ (fun i => by decide)

/-- C4 amended: no input is validated before worker dispatch.  The only
check in the pipeline is the unknown-voice check inside the render call:
a blocking call with an unknown voice fails when (and only because) the
render path runs, with the cache necessarily missing; a streaming call
whose per-chunk jobs all fail yields nothing and returns normally, having
dispatched every chunk; and a blocking call with empty text — or any
speed, including non-positive ones — passes no validation and succeeds
whenever the session does. -/
theorem invalid_input_amended
    (run : List Char → List Char → ℚ → Except TTSError Audio)
    (cache : List (CacheKey × Audio)) (text voice : List Char) (speed : ℚ)
    (W K : Nat) (done : Nat → Nat → Bool) (ok : Nat → Bool) (a : Audio)
    (hvoice : voice ∉ availableVoices)
    (hmiss : alookup cache ⟨text, voice, speed⟩ = none)
    (hok : ∀ i, ok i = false)
    (hv : "expr-voice-5-m".toList ∈ availableVoices) :
    generate_fast (renderModel run) cache text voice speed true =
      .error .invalidVoice ∧
    streamingYields W K done ok = [] ∧
    generate_fast (renderModel (fun _ _ _ => .ok a)) [] []
        "expr-voice-5-m".toList speed true =
      .ok (a, cachePut [] ⟨[], "expr-voice-5-m".toList, speed⟩ a
        maxCacheSize) := by
  refine ⟨?_, streamingYields_all_fail W K done ok hok, ?_⟩
  · rw [generate_fast, if_pos rfl, hmiss, renderModel, if_neg hvoice]
  · rw [generate_fast, if_pos rfl]
    show (match renderModel (fun _ _ _ => .ok a) [] "expr-voice-5-m".toList
        speed with
      | Except.error e => Except.error e
      | Except.ok audio => Except.ok (audio,
          cachePut [] ⟨[], "expr-voice-5-m".toList, speed⟩ audio maxCacheSize)) = _
    rw [renderModel, if_pos hv]

/-- Witness for C4's amended theorem at concrete inputs. -/
theorem invalid_input_amended_witness :
    ("bad-voice".toList ∉ availableVoices ∧
      alookup ([] : List (CacheKey × Audio))
        ⟨"hi".toList, "bad-voice".toList, 1⟩ = none ∧
      (∀ i : Nat, (fun _ : Nat => false) i = false) ∧
      "expr-voice-5-m".toList ∈ availableVoices) ∧
    (generate_fast (renderModel (fun _ _ _ => .error .renderFailure)) []
        "hi".toList "bad-voice".toList 1 true = .error .invalidVoice ∧
      streamingYields 2 3 (fun _ _ => true) (fun _ => false) = [] ∧
      generate_fast (renderModel (fun _ _ _ => .ok [2])) [] []
          "expr-voice-5-m".toList 1 true =
        .ok ([2], cachePut [] ⟨[], "expr-voice-5-m".toList, 1⟩ [2]
          maxCacheSize)) :=
  ⟨⟨by decide, rfl, fun i => rfl, by decide⟩,
    invalid_input_amended (fun _ _ _ => .error .renderFailure) []
      "hi".toList "bad-voice".toList 1 2 3 (fun _ _ => true) (fun _ => false)
      [2] (by decide) rfl (fun i => rfl) (by decide)⟩

end KittenTTS
